import Mathlib

/-!
Verification of the event-lifecycle and booking-integrity subsystem of the
DevEvents application (Next.js / Mongoose).  The embedded functions are
translated from:

* `generateSlug`, `normalizeDate`, `normalizeTime` and the `EventSchema`
  pre-save hook in `src/components/BookEvent.tsx` (event model section);
* the `BookingSchema` (email validation, unique `(eventId, email)` index,
  referential-integrity pre-save hook) in `src/unnamed/part_004`;
* `getSimilarEventsBySlug` in `src/unnamed/part_002`.

JavaScript string semantics are modelled at the ASCII level (plus the common
Unicode whitespace characters that `trim`/`\s` recognise): `\w` is
`[A-Za-z0-9_]`, `toLowerCase`/`toUpperCase` act on ASCII letters.  Exotic
Unicode case mappings (e.g. U+212A) are outside the model.  A thrown
`Error` is modelled as `none` / `Except.error`.
-/

namespace DevEvents

/-- JS whitespace class (`\s`, also used by `String.prototype.trim`):
ASCII whitespace plus the common Unicode members NBSP, BOM and the
line/paragraph separators. -/
def isSpaceJS (c : Char) : Bool :=
  c = ' ' || c = '\t' || c = '\n' || c = '\r' || c = '\x0b' || c = '\x0c' ||
  c = ' ' || c = '﻿' || c = ' ' || c = ' '

/-- ASCII fragment of `String.prototype.toLowerCase`. -/
def toLowerJS (c : Char) : Char :=
  if 'A' ≤ c && c ≤ 'Z' then Char.ofNat (c.toNat + 32) else c

/-- ASCII fragment of `String.prototype.toUpperCase`. -/
def toUpperJS (c : Char) : Char :=
  if 'a' ≤ c && c ≤ 'z' then Char.ofNat (c.toNat - 32) else c

/-- Regex class `\d`. -/
def isDigitChar (c : Char) : Bool := '0' ≤ c && c ≤ '9'

/-- Regex class `\w` (ASCII word characters, underscore included). -/
def isWordChar (c : Char) : Bool :=
  ('a' ≤ c && c ≤ 'z') || ('A' ≤ c && c ≤ 'Z') || ('0' ≤ c && c ≤ '9') || c = '_'

/-- Numeric value of a decimal digit character. -/
def digitVal (c : Char) : Nat := c.toNat - 48

/-- Decimal digit of a value `< 10` (the default case is unreachable in
this development: `digitChar` is only applied to `n % 10` or `n < 10`). -/
def digitChar : Nat → Char
  | 0 => '0' | 1 => '1' | 2 => '2' | 3 => '3' | 4 => '4'
  | 5 => '5' | 6 => '6' | 7 => '7' | 8 => '8' | 9 => '9'
  | _ => '*'

/-- Value of a decimal digit string (`parseInt(s, 10)` on all-digit input). -/
def digitsVal (l : List Char) : Nat := l.foldl (fun a c => a * 10 + digitVal c) 0

/-- Decimal rendering of a natural number (JS `Number.prototype.toString`);
`fuel` is a structural-recursion bound, always sufficient at `n + 1`. -/
def natListAux : Nat → Nat → List Char
  | 0, _ => []
  | fuel + 1, n =>
    if n < 10 then [digitChar n] else natListAux fuel (n / 10) ++ [digitChar (n % 10)]

/-- Decimal digits of `n` (JS `${n}`). -/
def natList (n : Nat) : List Char := natListAux (n + 1) n

/-- Decimal string of `n` (JS `${n}`). -/
def natStr (n : Nat) : String := ⟨natList n⟩

theorem digitVal_digitChar {d : Nat} (h : d ≤ 9) : digitVal (digitChar d) = d := by
  interval_cases d <;> decide

theorem isDigitChar_digitChar {d : Nat} (h : d ≤ 9) : isDigitChar (digitChar d) = true := by
  interval_cases d <;> decide

theorem natListAux_small {fuel n : Nat} (hf : 0 < fuel) (hn : n < 10) :
    natListAux fuel n = [digitChar n] := by
  cases fuel with
  | zero => omega
  | succ f => simp [natListAux, hn]

theorem natListAux_ne_nil {fuel n : Nat} (hf : 0 < fuel) : natListAux fuel n ≠ [] := by
  cases fuel with
  | zero => omega
  | succ f =>
    by_cases hn : n < 10
    · simp [natListAux, hn]
    · simp [natListAux, hn]

theorem natList_ne_nil (n : Nat) : natList n ≠ [] :=
  natListAux_ne_nil (Nat.succ_pos n)

theorem natListAux_all_digit {fuel n : Nat} :
    ∀ c ∈ natListAux fuel n, isDigitChar c = true := by
  induction fuel generalizing n with
  | zero => simp [natListAux]
  | succ f ih =>
    intro c hc
    by_cases hn : n < 10
    · simp [natListAux, hn] at hc
      subst hc
      exact isDigitChar_digitChar (by omega)
    · simp [natListAux, hn] at hc
      rcases hc with hc | hc
      · exact ih _ hc
      · subst hc
        exact isDigitChar_digitChar (Nat.le_of_lt_succ (Nat.mod_lt _ (by omega)))

theorem natList_all_digit (n : Nat) : ∀ c ∈ natList n, isDigitChar c = true :=
  natListAux_all_digit

theorem digitsVal_append (l₁ l₂ : List Char) :
    digitsVal (l₁ ++ l₂) = l₂.foldl (fun a c => a * 10 + digitVal c) (digitsVal l₁) := by
  simp [digitsVal, List.foldl_append]

theorem digitsVal_natListAux {fuel n : Nat} (h : n < 10 ^ fuel) :
    digitsVal (natListAux fuel n) = n := by
  induction fuel generalizing n with
  | zero =>
    simp [Nat.pow_zero] at h
    simp [natListAux, digitsVal, h]
  | succ f ih =>
    by_cases hn : n < 10
    · simp [natListAux, hn, digitsVal, digitVal_digitChar (by omega : n ≤ 9)]
    · have hdiv : n / 10 < 10 ^ f := by
        rw [Nat.pow_succ] at h
        exact Nat.div_lt_of_lt_mul (by omega)
      simp only [natListAux, hn, if_false, digitsVal_append, ih hdiv]
      simp [digitsVal, digitVal_digitChar (Nat.le_of_lt_succ (Nat.mod_lt _ (by omega : 0 < 10)))]
      omega

theorem digitsVal_natList (n : Nat) : digitsVal (natList n) = n :=
  digitsVal_natListAux
    (lt_of_lt_of_le (Nat.lt_pow_self (by omega) n)
      (Nat.pow_le_pow_right (by omega) (Nat.le_succ n)))

theorem natList_injective : Function.Injective natList := by
  intro m n h
  have := digitsVal_natList m
  rw [h, digitsVal_natList] at this
  omega

theorem natStr_injective : Function.Injective natStr := by
  intro m n h
  exact natList_injective (congrArg String.data h)

/-- `String.prototype.trim`: drop leading and trailing JS whitespace. -/
def trimJS (l : List Char) : List Char :=
  ((l.dropWhile isSpaceJS).reverse.dropWhile isSpaceJS).reverse

/-- Semantics of `replace(/p+/g, r)` for a character class `p`: each maximal
run of characters satisfying `p` is replaced by the single character `r`.
The flag records whether the previous input character was part of a run. -/
def collapseRunsAux (p : Char → Bool) (r : Char) : Bool → List Char → List Char
  | _, [] => []
  | inRun, c :: cs =>
    if p c then
      if inRun then collapseRunsAux p r true cs else r :: collapseRunsAux p r true cs
    else c :: collapseRunsAux p r false cs

def collapseRuns (p : Char → Bool) (r : Char) (l : List Char) : List Char :=
  collapseRunsAux p r false l

/-- Remove a single leading hyphen (the `^-` alternative of
`replace(/^-|-$/g, "")`). -/
def dropLeadHyphen (l : List Char) : List Char :=
  match l with
  | [] => []
  | c :: t => if c = '-' then t else c :: t

/-- Semantics of `replace(/^-|-$/g, "")`: remove one leading and one
trailing hyphen (the `g`-flagged regex matches at most once at each end;
the trailing hyphen is removed by working on the reversed list). -/
def stripEdgeHyphen (l : List Char) : List Char :=
  (dropLeadHyphen (dropLeadHyphen l).reverse).reverse

/-- `generateSlug` (src/components/BookEvent.tsx, lines 191–199):
lower-case, trim, strip characters outside `[\w\s-]`, replace whitespace
runs with `-`, collapse hyphen runs, strip edge hyphens. -/
def generateSlug (title : String) : String :=
  let l0 := title.data.map toLowerJS
  let l1 := trimJS l0
  let l2 := l1.filter (fun c => isWordChar c || isSpaceJS c || c = '-')
  let l3 := collapseRuns isSpaceJS '-' l2
  let l4 := collapseRuns (fun c => c = '-') '-' l3
  ⟨stripEdgeHyphen l4⟩

/-- `hours.toString().padStart(2, "0")`. -/
def pad2 (n : Nat) : List Char :=
  if (natList n).length < 2 then '0' :: natList n else natList n

/-- `normalizeTime` (src/components/BookEvent.tsx, lines 218–249) on the
character list of the input.  First branch: `^(\d{1,2}):(\d{2})$` with
hours 0–23; second branch: `^(\d{1,2}):(\d{2})\s*(AM|PM)$` (after
`toUpperCase`), with the source's 12↔24 hour conversion and no range check
on the hour or the minutes.  A thrown `Error` is `none`. -/
def normalizeTimeL (l : List Char) : Option (List Char) :=
  let u := (trimJS l).map toUpperJS
  let hd := u.takeWhile isDigitChar
  let rest := u.dropWhile isDigitChar
  if 1 ≤ hd.length ∧ hd.length ≤ 2 then
    match rest with
    | ':' :: m1 :: m2 :: rest2 =>
      if isDigitChar m1 && isDigitChar m2 then
        let hours := digitsVal hd
        if rest2.isEmpty ∧ hours ≤ 23 then
          some (pad2 hours ++ ':' :: [m1, m2])
        else
          match rest2.dropWhile isSpaceJS with
          | ['A', 'M'] => some (pad2 (if hours = 12 then 0 else hours) ++ ':' :: [m1, m2])
          | ['P', 'M'] => some (pad2 (if hours = 12 then hours else hours + 12) ++ ':' :: [m1, m2])
          | _ => none
      else none
    | _ => none
  else none

def normalizeTime (s : String) : Option String :=
  (normalizeTimeL s.data).map fun l => ⟨l⟩

example : normalizeTime "2:30" = some "02:30" := by decide
example : normalizeTime "2:30 PM" = some "14:30" := by decide
example : normalizeTime "12:00 AM" = some "00:00" := by decide
example : normalizeTime "12:00 PM" = some "12:00" := by decide
example : normalizeTime "25:00" = none := by decide
example : normalizeTime "13:00 PM" = some "25:00" := by decide
example : normalizeTime "10:99" = some "10:99" := by decide
example : normalizeTime " 9:05 pm " = some "21:05" := by decide
example : normalizeTime "9:5" = none := by decide
example : generateSlug "Hello, World!  2025" = "hello-world-2025" := by decide
example : generateSlug "a_b" = "a_b" := by decide
example : generateSlug "  --Dev  Con!--  " = "dev-con" := by decide

/-- Candidate slug number `n` probed by the pre-save loop: the base slug
itself for `n = 0`, and `` `${baseSlug}-${counter}` `` for `n ≥ 1`. -/
def slugCand (base : String) : Nat → String
  | 0 => base
  | n + 1 => base ++ "-" ++ natStr (n + 1)

/-- The pre-save `while (await Event.findOne({slug, _id: {$ne: this._id}}))`
loop: probe candidate `c`, on collision move to `c + 1`.  `fuel` is a
structural bound; `resolveSlug` supplies `taken.length + 1`, which always
suffices because the candidates are pairwise distinct strings
(`searchFree_isSome_of_free` / `exists_free_slugCand` below). -/
def searchFree (taken : List String) (base : String) : Nat → Nat → Option Nat
  | _, 0 => none
  | c, fuel + 1 =>
    if taken.contains (slugCand base c) then searchFree taken base (c + 1) fuel
    else some c

/-- Slug chosen by the pre-save hook for base slug `base` when the other
persisted events carry the slugs `taken`. -/
def resolveSlug (taken : List String) (base : String) : String :=
  match searchFree taken base 0 (taken.length + 1) with
  | some n => slugCand base n
  | none => base

/-- Event record; only the fields the verified logic reads or writes
(`_id`, `title`, `slug`, `date`, `time`, `tags`).  The presentation-only
required fields of `EventSchema` (description, overview, image, venue,
location, mode, audience, agenda, organizer) are carried by no claim and
are omitted. -/
structure EventRec where
  id : Nat
  title : String
  slug : String
  date : String
  time : String
  tags : List String
deriving DecidableEq

/-- The `EventSchema.pre("save")` hook (src/components/BookEvent.tsx,
lines 257–290).  `nd` is the host's `new Date`/`toISOString` pipeline of
`normalizeDate`, which is implementation- and timezone-defined and is
therefore a parameter; `normalizeTime` is the embedded function above.
`store` is the persisted collection: the `$ne: this._id` filter excludes
the record being saved.  A hook that throws aborts the save (`none`). -/
def eventPreSave (nd : String → Option String) (store : List EventRec)
    (isNew modTitle modDate modTime : Bool) (ev : EventRec) : Option EventRec :=
  let ev1 :=
    if modTitle || isNew then
      { ev with slug := resolveSlug ((store.filter (fun e => e.id ≠ ev.id)).map EventRec.slug)
                          (generateSlug ev.title) }
    else ev
  (if modDate || isNew then nd ev1.date else some ev1.date).bind fun d =>
    (if modTime || isNew then normalizeTime ev1.time else some ev1.time).map fun t =>
      { ev1 with date := d, time := t }

/-- Creation: run the hook with `isNew = true` and append the record. -/
def createEvent (nd : String → Option String) (store : List EventRec) (ev : EventRec) :
    Option (List EventRec) :=
  (eventPreSave nd store true true true true ev).map fun ev' => store ++ [ev']

/-- Update of a loaded record: run the hook with `isNew = false` and the
`isModified` flags of the edited fields, then write back by `_id`. -/
def updateEvent (nd : String → Option String) (store : List EventRec)
    (modTitle modDate modTime : Bool) (ev : EventRec) : Option (List EventRec) :=
  (eventPreSave nd store false modTitle modDate modTime ev).map fun ev' =>
    store.map fun e => if e.id = ev.id then ev' else e

/-- Character class `[^\s@]` of the booking email regex. -/
def isEmailChar (c : Char) : Bool := !isSpaceJS c && c ≠ '@'

/-- `EMAIL_REGEX = /^[^\s@]+@[^\s@]+\.[^\s@]+$/` (src/unnamed/part_004).
The first `[^\s@]+` must end at the first `@`; the remainder may contain
neither spaces nor `@` and must contain a `.` that is neither its first
nor its last character. -/
def validEmail (s : String) : Bool :=
  match s.data.span isEmailChar with
  | (a, '@' :: b) =>
    !a.isEmpty && b.all isEmailChar && ((b.dropLast).drop 1).contains '.'
  | _ => false

/-- The schema's `trim: true, lowercase: true` setters applied to the
submitted email before validation and storage. -/
def normEmail (s : String) : String := ⟨(trimJS s.data).map toLowerJS⟩

example : validEmail "a@b.co" = true := by decide
example : validEmail "a@b.c.d" = true := by decide
example : validEmail "a@bc" = false := by decide
example : validEmail "a@.c" = false := by decide
example : validEmail "a@c." = false := by decide
example : validEmail "a b@c.d" = false := by decide
example : validEmail "a@b@c.d" = false := by decide
example : normEmail " A@B.Co " = "a@b.co" := by decide

structure BookingRec where
  eventId : Nat
  email : String
deriving DecidableEq

inductive BookingError where
  | validationFailed
  | refIntegrity
  | duplicateBooking
deriving DecidableEq

/-- Persisting a booking (`BookingSchema`, src/unnamed/part_004): the
`trim`/`lowercase` setters and `EMAIL_REGEX` validator run first
(Mongoose validation is the first pre-save step); then the
`pre("save")` hook checks `Event.findById(eventId)` and aborts with an
error when no such event exists; finally the write is subject to the
unique compound index on `(eventId, email)` — a storage-layer
constraint, not an application pre-check — which rejects a duplicate
pair.  `Except.error` means the write did not happen: the booking
collection is returned (changed) only on `Except.ok`. -/
def saveBooking (events : List EventRec) (bookings : List BookingRec)
    (eventId : Nat) (email : String) : Except BookingError (List BookingRec) :=
  let e := normEmail email
  if !validEmail e then .error .validationFailed
  else if !events.any (fun ev => ev.id == eventId) then .error .refIntegrity
  else if bookings.any (fun b => b.eventId == eventId && b.email == e) then
    .error .duplicateBooking
  else .ok (bookings ++ [⟨eventId, e⟩])

/-- `getSimilarEventsBySlug` (src/unnamed/part_002, lines 96–105):
`findOne({slug})`, then `find({_id: {$ne: event?._id}, tags: {$in:
event?.tags}})`.  When the slug resolves, `$in` keeps the events whose
tag array meets the source event's tags, and `$ne` drops the source
event.  When it does not resolve, `event?.tags` is `undefined`, the
`$in` cast fails, and the `catch` returns `[]`. -/
def getSimilarEventsBySlug (store : List EventRec) (slug : String) : List EventRec :=
  match store.find? (fun e => e.slug == slug) with
  | none => []
  | some ev => store.filter fun e => e.id != ev.id && e.tags.any (fun t => ev.tags.contains t)

theorem slugCand_pos {base : String} {k : Nat} (h : 1 ≤ k) :
    slugCand base k = base ++ "-" ++ natStr k := by
  cases k with
  | zero => omega
  | succ n => rfl

theorem string_append_left_cancel {s t u : String} (h : s ++ t = s ++ u) : t = u := by
  have hd := congrArg String.data h
  simp only [String.data_append] at hd
  exact String.ext (List.append_cancel_left hd)

theorem slugCand_injective (base : String) : Function.Injective (slugCand base) := by
  have hlen : ∀ k : Nat, 1 ≤ (natStr k).length := by
    intro k
    have := natList_ne_nil k
    exact List.length_pos.mpr this
  intro m n h
  match m, n with
  | 0, 0 => rfl
  | 0, n + 1 =>
    exfalso
    have := congrArg String.length h
    simp only [slugCand, String.length_append] at this
    have := hlen (n + 1)
    omega
  | m + 1, 0 =>
    exfalso
    have := congrArg String.length h
    simp only [slugCand, String.length_append] at this
    have := hlen (m + 1)
    omega
  | m + 1, n + 1 =>
    simp only [slugCand, String.append_assoc] at h
    have := natStr_injective (string_append_left_cancel (string_append_left_cancel h))
    omega

theorem exists_free_slugCand (taken : List String) (base : String) :
    ∃ n, n ≤ taken.length ∧ taken.contains (slugCand base n) = false := by
  by_contra hcon
  push_neg at hcon
  have hmem : ∀ n ∈ List.range (taken.length + 1), slugCand base n ∈ taken := by
    intro n hn
    rw [List.mem_range] at hn
    have h1 := hcon n (by omega)
    rcases Bool.eq_false_or_eq_true (taken.contains (slugCand base n)) with hc | hc
    · simpa [List.contains] using hc
    · exact absurd hc h1
  have hnodup : ((List.range (taken.length + 1)).map (slugCand base)).Nodup :=
    (List.nodup_range _).map (slugCand_injective base)
  have hsub : (List.range (taken.length + 1)).map (slugCand base) ⊆ taken := by
    intro s hs
    obtain ⟨n, hn, rfl⟩ := List.mem_map.mp hs
    exact hmem n hn
  have := (List.subperm_of_subset hnodup hsub).length_le
  simp only [List.length_map, List.length_range] at this
  omega

theorem searchFree_sound (taken : List String) (base : String) :
    ∀ fuel c n, searchFree taken base c fuel = some n →
      c ≤ n ∧ taken.contains (slugCand base n) = false ∧
      ∀ j, c ≤ j → j < n → taken.contains (slugCand base j) = true := by
  intro fuel
  induction fuel with
  | zero => intro c n h; simp [searchFree] at h
  | succ f ih =>
    intro c n h
    by_cases hc : taken.contains (slugCand base c)
    · rw [searchFree, if_pos hc] at h
      obtain ⟨h1, h2, h3⟩ := ih (c + 1) n h
      refine ⟨by omega, h2, fun j hj1 hj2 => ?_⟩
      rcases Nat.eq_or_lt_of_le hj1 with rfl | hlt
      · exact hc
      · exact h3 j (by omega) hj2
    · rw [searchFree, if_neg hc] at h
      have hcn := Option.some.inj h
      subst hcn
      exact ⟨le_refl _, by simpa using hc, fun j hj1 hj2 => absurd hj2 (by omega)⟩

theorem searchFree_isSome_of_free (taken : List String) (base : String) :
    ∀ fuel c, (∃ n, c ≤ n ∧ n < c + fuel ∧ taken.contains (slugCand base n) = false) →
      ∃ m, searchFree taken base c fuel = some m := by
  intro fuel
  induction fuel with
  | zero => rintro c ⟨n, h1, h2, _⟩; omega
  | succ f ih =>
    rintro c ⟨n, h1, h2, h3⟩
    by_cases hc : taken.contains (slugCand base c)
    · have hn : n ≠ c := by
        rintro rfl
        rw [hc] at h3
        exact Bool.noConfusion h3
      obtain ⟨m, hm⟩ := ih (c + 1) ⟨n, by omega, by omega, h3⟩
      exact ⟨m, by rw [searchFree, if_pos hc]; exact hm⟩
    · exact ⟨c, by rw [searchFree, if_neg hc]⟩

/-- Characterisation of the slug the pre-save loop settles on: it is free
among the other events' slugs, equals the base slug when that is free,
and is otherwise the first free numbered candidate. -/
theorem resolveSlug_spec (taken : List String) (base : String) :
    taken.contains (resolveSlug taken base) = false ∧
    (taken.contains base = false → resolveSlug taken base = base) ∧
    (taken.contains base = true →
      ∃ k, 1 ≤ k ∧ resolveSlug taken base = slugCand base k ∧
        ∀ j, j < k → taken.contains (slugCand base j) = true) := by
  obtain ⟨n, hn1, hn2⟩ := exists_free_slugCand taken base
  obtain ⟨m, hm⟩ := searchFree_isSome_of_free taken base (taken.length + 1) 0
    ⟨n, Nat.zero_le _, by omega, hn2⟩
  obtain ⟨-, hfree, hmin⟩ := searchFree_sound taken base _ 0 m hm
  unfold resolveSlug
  rw [hm]
  refine ⟨hfree, ?_, ?_⟩
  · intro hbase
    rcases Nat.eq_zero_or_pos m with rfl | hpos
    · rfl
    · have h0 := hmin 0 (Nat.zero_le _) hpos
      rw [show slugCand base 0 = base from rfl] at h0
      rw [h0] at hbase
      exact Bool.noConfusion hbase
  · intro hbase
    rcases Nat.eq_zero_or_pos m with rfl | hpos
    · rw [show slugCand base 0 = base from rfl, hbase] at hfree
      exact Bool.noConfusion hfree
    · exact ⟨m, hpos, rfl, fun j hj => hmin j (Nat.zero_le _) hj⟩

theorem eventPreSave_slug_of_new (nd : String → Option String) (store : List EventRec)
    (ev ev' : EventRec) (h : eventPreSave nd store true true true true ev = some ev') :
    ev'.slug = resolveSlug ((store.filter (fun e => e.id ≠ ev.id)).map EventRec.slug)
      (generateSlug ev.title) := by
  simp only [eventPreSave, Bool.or_true, if_true, Option.bind_eq_some,
    Option.map_eq_some'] at h
  obtain ⟨d, -, t, -, rfl⟩ := h
  rfl

/-- Sample records for the concrete two-`"DevCon"` scenario. -/
def devconA : EventRec := ⟨1, "DevCon", "", "2025-01-01", "10:00", ["dev"]⟩

def devconA' : EventRec := ⟨1, "DevCon", "devcon", "2025-01-01", "10:00", ["dev"]⟩

def devconB : EventRec := ⟨2, "DevCon", "", "2025-01-01", "10:00", ["dev"]⟩

def devconB' : EventRec := ⟨2, "DevCon", "devcon-1", "2025-01-01", "10:00", ["dev"]⟩

/-- C3: when an event is created, its slug is the base slug
`generateSlug(title)` if no other persisted event has that slug, and
otherwise the first free candidate among `base-1`, `base-2`, …; creating
two events titled `"DevCon"` yields the slugs `"devcon"` and
`"devcon-1"`. -/
theorem slug_uniqueness_resolution :
    (∀ (nd : String → Option String) (store : List EventRec) (ev : EventRec)
       (store' : List EventRec), createEvent nd store ev = some store' →
       ∃ ev', store' = store ++ [ev'] ∧
         (((store.filter (fun e => e.id ≠ ev.id)).map EventRec.slug).contains
            ev'.slug = false ∧
          (((store.filter (fun e => e.id ≠ ev.id)).map EventRec.slug).contains
             (generateSlug ev.title) = false → ev'.slug = generateSlug ev.title) ∧
          (((store.filter (fun e => e.id ≠ ev.id)).map EventRec.slug).contains
             (generateSlug ev.title) = true →
           ∃ k, 1 ≤ k ∧ ev'.slug = generateSlug ev.title ++ "-" ++ natStr k ∧
             ∀ j, j < k →
               ((store.filter (fun e => e.id ≠ ev.id)).map EventRec.slug).contains
                 (slugCand (generateSlug ev.title) j) = true))) ∧
    (createEvent (fun s => some s) [] devconA = some [devconA'] ∧
     createEvent (fun s => some s) [devconA'] devconB = some [devconA', devconB'] ∧
     devconA'.slug = "devcon" ∧ devconB'.slug = "devcon-1") := by
  constructor
  · intro nd store ev store' h
    rw [createEvent, Option.map_eq_some'] at h
    obtain ⟨ev', hsave, rfl⟩ := h
    refine ⟨ev', rfl, ?_⟩
    have hslug := eventPreSave_slug_of_new nd store ev ev' hsave
    obtain ⟨hfree, hbase, hcoll⟩ :=
      resolveSlug_spec ((store.filter (fun e => e.id ≠ ev.id)).map EventRec.slug)
        (generateSlug ev.title)
    refine ⟨by rw [hslug]; exact hfree, fun hb => by rw [hslug]; exact hbase hb, fun hb => ?_⟩
    obtain ⟨k, hk1, hk2, hk3⟩ := hcoll hb
    exact ⟨k, hk1, by rw [hslug, hk2, slugCand_pos hk1], hk3⟩
  · refine ⟨by decide, by decide, rfl, rfl⟩

theorem slug_uniqueness_resolution_witness :
    ∃ ev', [devconA', devconB'] = [devconA'] ++ [ev'] ∧
      ((([devconA'].filter (fun e => e.id ≠ devconB.id)).map EventRec.slug).contains
         ev'.slug = false ∧
       ((([devconA'].filter (fun e => e.id ≠ devconB.id)).map EventRec.slug).contains
          (generateSlug devconB.title) = false → ev'.slug = generateSlug devconB.title) ∧
       ((([devconA'].filter (fun e => e.id ≠ devconB.id)).map EventRec.slug).contains
          (generateSlug devconB.title) = true →
        ∃ k, 1 ≤ k ∧ ev'.slug = generateSlug devconB.title ++ "-" ++ natStr k ∧
          ∀ j, j < k →
            (([devconA'].filter (fun e => e.id ≠ devconB.id)).map EventRec.slug).contains
              (slugCand (generateSlug devconB.title) j) = true)) :=
  slug_uniqueness_resolution.1 (fun s => some s) [devconA'] devconB
    [devconA', devconB'] (by decide)

/-- C9: on an update (save of an existing record, `isNew = false`),
normalisation and slug re-derivation apply only to the fields whose
`isModified` flag is set: an unchanged title leaves the stored slug
untouched, an unchanged date (resp. time) is not re-normalised, and a
no-op edit maps the store to itself. -/
theorem update_frame :
    (∀ (nd : String → Option String) (store : List EventRec) (mD mT : Bool)
       (ev ev' : EventRec), eventPreSave nd store false false mD mT ev = some ev' →
       ev'.slug = ev.slug) ∧
    (∀ (nd : String → Option String) (store : List EventRec) (mTl mT : Bool)
       (ev ev' : EventRec), eventPreSave nd store false mTl false mT ev = some ev' →
       ev'.date = ev.date) ∧
    (∀ (nd : String → Option String) (store : List EventRec) (mTl mD : Bool)
       (ev ev' : EventRec), eventPreSave nd store false mTl mD false ev = some ev' →
       ev'.time = ev.time) ∧
    (∀ (nd : String → Option String) (store : List EventRec) (ev : EventRec),
       (∀ e ∈ store, e.id = ev.id → e = ev) →
       updateEvent nd store false false false ev = some store) := by
  refine ⟨?_, ?_, ?_, ?_⟩
  · intro nd store mD mT ev ev' h
    simp only [eventPreSave, Bool.or_false, Bool.false_or, if_false,
      Option.bind_eq_some, Option.map_eq_some'] at h
    obtain ⟨d, -, t, -, rfl⟩ := h
    rfl
  · intro nd store mTl mT ev ev' h
    simp only [eventPreSave, Bool.or_false, Bool.false_or, if_false,
      Option.bind_eq_some, Option.map_eq_some'] at h
    obtain ⟨d, hd, t, -, rfl⟩ := h
    cases hmTl : mTl <;> rw [hmTl] at hd <;> simp at hd <;> simp [← hd]
  · intro nd store mTl mD ev ev' h
    simp only [eventPreSave, Bool.or_false, Bool.false_or, if_false,
      Option.bind_eq_some, Option.map_eq_some'] at h
    obtain ⟨d, -, t, ht, rfl⟩ := h
    cases hmTl : mTl <;> rw [hmTl] at ht <;> simp at ht <;> simp [← ht]
  · intro nd store ev hid
    have h1 : eventPreSave nd store false false false false ev = some ev := by
      simp [eventPreSave]
    have h2 : (store.map fun e => if e.id = ev.id then ev else e) = store := by
      calc (store.map fun e => if e.id = ev.id then ev else e)
          = store.map id := List.map_congr_left (fun e he => by
            by_cases he' : e.id = ev.id
            · rw [if_pos he', hid e he he']; rfl
            · rw [if_neg he']; rfl)
        _ = store := List.map_id store
    rw [updateEvent, h1, Option.map_some', h2]

theorem update_frame_witness :
    updateEvent (fun s => some s) [devconA'] false false false devconA' =
      some [devconA'] ∧ devconA'.slug = devconA'.slug :=
  ⟨update_frame.2.2.2 (fun s => some s) [devconA'] devconA' (by decide),
   update_frame.1 (fun s => some s) [] false false devconA' devconA' (by decide)⟩

/-- C4: the pair `(eventId, email)` is unique across persisted bookings —
with a valid email, an existing event and no prior booking for the pair,
the first save succeeds, an identical second save is rejected as a
duplicate by the unique compound index, and the store then holds exactly
one record for the pair. -/
theorem booking_pair_unique :
    ∀ (events : List EventRec) (bookings : List BookingRec) (eid : Nat) (em : String),
      validEmail (normEmail em) = true →
      events.any (fun e => e.id == eid) = true →
      bookings.any (fun b => b.eventId == eid && b.email == normEmail em) = false →
      saveBooking events bookings eid em =
        Except.ok (bookings ++ [(⟨eid, normEmail em⟩ : BookingRec)]) ∧
      saveBooking events (bookings ++ [(⟨eid, normEmail em⟩ : BookingRec)]) eid em =
        Except.error BookingError.duplicateBooking ∧
      ((bookings ++ [(⟨eid, normEmail em⟩ : BookingRec)]).filter
        (fun b => b.eventId == eid && b.email == normEmail em)).length = 1 := by
  intro events bookings eid em hval hev hdup
  refine ⟨?_, ?_, ?_⟩
  · simp [saveBooking, hval, hev, hdup]
  · simp [saveBooking, hval, hev, List.any_append, hdup]
  · have hnil : bookings.filter (fun b => b.eventId == eid && b.email == normEmail em)
        = [] := by
      rw [List.filter_eq_nil_iff]
      intro a ha
      rw [List.any_eq_false] at hdup
      exact hdup a ha
    simp [List.filter_append, hnil]

theorem booking_pair_unique_witness :
    saveBooking [devconA'] [] 1 "A@b.co" =
      Except.ok (([] : List BookingRec) ++ [(⟨1, normEmail "A@b.co"⟩ : BookingRec)]) ∧
    saveBooking [devconA'] (([] : List BookingRec) ++
        [(⟨1, normEmail "A@b.co"⟩ : BookingRec)]) 1 "A@b.co" =
      Except.error BookingError.duplicateBooking ∧
    ((([] : List BookingRec) ++ [(⟨1, normEmail "A@b.co"⟩ : BookingRec)]).filter
      (fun b => b.eventId == 1 && b.email == normEmail "A@b.co")).length = 1 :=
  booking_pair_unique [devconA'] [] 1 "A@b.co" (by decide) (by decide) (by decide)

/-- C5: creating a booking whose `eventId` matches no persisted event is
rejected by the referential-integrity pre-save hook; since the save
errors, no booking record is persisted (the store is returned, changed,
only on `Except.ok`). -/
theorem booking_ref_integrity :
    ∀ (events : List EventRec) (bookings : List BookingRec) (eid : Nat) (em : String),
      validEmail (normEmail em) = true →
      events.any (fun e => e.id == eid) = false →
      saveBooking events bookings eid em = Except.error BookingError.refIntegrity := by
  intro events bookings eid em hval hev
  simp [saveBooking, hval, hev]

theorem booking_ref_integrity_witness :
    saveBooking [] [] 1 "A@b.co" = Except.error BookingError.refIntegrity :=
  booking_ref_integrity [] [] 1 "A@b.co" (by decide) (by decide)

/-- Third sample event, sharing the tag `"dev"` with `devconA'`. -/
def cloudEv : EventRec := ⟨3, "Cloud Summit", "cloud-summit", "2025-02-02", "09:00", ["dev", "cloud"]⟩

/-- C6: `getSimilarEventsBySlug` returns exactly the persisted events
other than the resolved source event that share at least one tag with
it, and returns `[]` — not an error — when the source event cannot be
resolved (and hence also when no sharing event exists, the filter then
being empty). -/
theorem similar_events_spec :
    (∀ (store : List EventRec) (sl : String) (ev : EventRec),
       store.find? (fun e => e.slug == sl) = some ev →
       ∀ e, e ∈ getSimilarEventsBySlug store sl ↔
         (e ∈ store ∧ e.id ≠ ev.id ∧ ∃ t ∈ e.tags, t ∈ ev.tags)) ∧
    (∀ (store : List EventRec) (sl : String),
       store.find? (fun e => e.slug == sl) = none →
       getSimilarEventsBySlug store sl = []) := by
  constructor
  · intro store sl ev h e
    rw [getSimilarEventsBySlug, h]
    simp [List.mem_filter, List.any_eq_true, List.contains_eq_any_beq]
  · intro store sl h
    rw [getSimilarEventsBySlug, h]

theorem similar_events_spec_witness :
    cloudEv ∈ getSimilarEventsBySlug [devconA', cloudEv] "devcon" ↔
      (cloudEv ∈ [devconA', cloudEv] ∧ cloudEv.id ≠ devconA'.id ∧
       ∃ t ∈ cloudEv.tags, t ∈ devconA'.tags) :=
  similar_events_spec.1 [devconA', cloudEv] "devcon" devconA' (by decide) cloudEv

/-- C2 fails on the code: the 12-hour branch of `normalizeTime` has no
range check on the hour, so `"13:00 PM"` does not raise `InvalidFormat`
— it matches `^(\d{1,2}):(\d{2})\s*(AM|PM)$`, gets `12` added to its
hour, and yields the out-of-range string `"25:00"`, contradicting the
function's own contract of normalising to 24-hour `HH:MM`.  (The
`"25:00"` example of the claim does fail as specified.) -/
theorem time_12h_range_unchecked :
    normalizeTime "13:00 PM" = some "25:00" ∧ normalizeTime "25:00" = none := by
  decide

/-- C1 fails on the code at `"a_b"`: JavaScript `\w` retains the
underscore, so `generateSlug "a_b" = "a_b"`, which contains a character
outside `[a-z0-9-]`. -/
theorem slug_charset_claim_false :
    generateSlug "a_b" = "a_b" ∧
    ((generateSlug "a_b").data.all fun c =>
      ('a' ≤ c && c ≤ 'z') || ('0' ≤ c && c ≤ '9') || c = '-') = false := by
  decide

/-- “No two consecutive hyphens” relation on adjacent characters. -/
def NoHH (a b : Char) : Prop := ¬(a = '-' ∧ b = '-')

theorem NoHH_symm {a b : Char} (h : NoHH a b) : NoHH b a :=
  fun hab => h ⟨hab.2, hab.1⟩

theorem chain_NoHH_reverse {l : List Char} (h : List.Chain' NoHH l) :
    List.Chain' NoHH l.reverse :=
  List.chain'_reverse.mpr (h.imp fun _ _ hab => NoHH_symm hab)

theorem mem_collapseRunsAux {p : Char → Bool} {r : Char} :
    ∀ {b : Bool} {l : List Char} {c : Char}, c ∈ collapseRunsAux p r b l →
      c = r ∨ (c ∈ l ∧ p c = false) := by
  intro b l
  induction l generalizing b with
  | nil => intro c h; simp [collapseRunsAux] at h
  | cons x xs ih =>
    intro c h
    simp only [collapseRunsAux] at h
    by_cases hx : p x = true
    · rw [if_pos hx] at h
      cases b with
      | true =>
        rcases ih h with h1 | ⟨h2, h3⟩
        · exact Or.inl h1
        · exact Or.inr ⟨List.mem_cons_of_mem _ h2, h3⟩
      | false =>
        rcases List.mem_cons.mp h with rfl | h'
        · exact Or.inl rfl
        · rcases ih h' with h1 | ⟨h2, h3⟩
          · exact Or.inl h1
          · exact Or.inr ⟨List.mem_cons_of_mem _ h2, h3⟩
    · rw [if_neg hx] at h
      rcases List.mem_cons.mp h with rfl | h'
      · exact Or.inr ⟨List.mem_cons_self _ _, by simpa using hx⟩
      · rcases ih h' with h1 | ⟨h2, h3⟩
        · exact Or.inl h1
        · exact Or.inr ⟨List.mem_cons_of_mem _ h2, h3⟩

theorem head_collapseRunsAux_true {p : Char → Bool} {r : Char} :
    ∀ {l : List Char} {c : Char}, (collapseRunsAux p r true l).head? = some c →
      p c = false := by
  intro l
  induction l with
  | nil => intro c h; simp [collapseRunsAux] at h
  | cons x xs ih =>
    intro c h
    simp only [collapseRunsAux] at h
    by_cases hx : p x = true
    · rw [if_pos hx, if_true] at h
      exact ih h
    · rw [if_neg hx] at h
      simp only [List.head?_cons, Option.some.injEq] at h
      subst h
      simpa using hx

theorem chain_collapseHyphen (l : List Char) :
    ∀ b, List.Chain' NoHH (collapseRunsAux (fun c => c = '-') '-' b l) := by
  induction l with
  | nil => intro b; simp [collapseRunsAux]
  | cons x xs ih =>
    intro b
    by_cases hx : x = '-'
    · cases b with
      | true =>
        have heq : collapseRunsAux (fun c => c = '-') '-' true (x :: xs) =
            collapseRunsAux (fun c => c = '-') '-' true xs := by
          simp [collapseRunsAux, hx]
        rw [heq]
        exact ih true
      | false =>
        have heq : collapseRunsAux (fun c => c = '-') '-' false (x :: xs) =
            '-' :: collapseRunsAux (fun c => c = '-') '-' true xs := by
          simp [collapseRunsAux, hx]
        rw [heq, List.chain'_cons']
        refine ⟨fun y hy => ?_, ih true⟩
        have hpy := head_collapseRunsAux_true hy
        intro hcon
        rw [hcon.2] at hpy
        simp at hpy
    · have heq : collapseRunsAux (fun c => c = '-') '-' b (x :: xs) =
          x :: collapseRunsAux (fun c => c = '-') '-' false xs := by
        simp [collapseRunsAux, hx]
      rw [heq, List.chain'_cons']
      exact ⟨fun y hy hcon => hx hcon.1, ih false⟩

theorem mem_dropLeadHyphen {l : List Char} {c : Char} (h : c ∈ dropLeadHyphen l) :
    c ∈ l := by
  cases l with
  | nil => simp [dropLeadHyphen] at h
  | cons x t =>
    by_cases hx : x = '-'
    · rw [dropLeadHyphen, if_pos hx] at h
      exact List.mem_cons_of_mem _ h
    · rwa [dropLeadHyphen, if_neg hx] at h

theorem chain_dropLeadHyphen {l : List Char} (h : List.Chain' NoHH l) :
    List.Chain' NoHH (dropLeadHyphen l) := by
  cases l with
  | nil => simp [dropLeadHyphen]
  | cons x t =>
    by_cases hx : x = '-'
    · rw [dropLeadHyphen, if_pos hx]
      exact h.tail
    · rwa [dropLeadHyphen, if_neg hx]

theorem head_dropLeadHyphen {l : List Char} (h : List.Chain' NoHH l) :
    (dropLeadHyphen l).head? ≠ some '-' := by
  cases l with
  | nil => simp [dropLeadHyphen]
  | cons x t =>
    by_cases hx : x = '-'
    · rw [dropLeadHyphen, if_pos hx]
      subst hx
      cases t with
      | nil => simp
      | cons y t' =>
        intro hy
        simp only [List.head?_cons, Option.some.injEq] at hy
        subst hy
        exact (List.chain'_cons.mp h).1 ⟨rfl, rfl⟩
    · rw [dropLeadHyphen, if_neg hx]
      simp only [List.head?_cons, ne_eq, Option.some.injEq]
      exact hx

theorem getLast_dropLeadHyphen (l : List Char) :
    (dropLeadHyphen l).getLast? = l.getLast? ∨ (dropLeadHyphen l).getLast? = none := by
  cases l with
  | nil => exact Or.inr (by simp [dropLeadHyphen])
  | cons x t =>
    by_cases hx : x = '-'
    · rw [dropLeadHyphen, if_pos hx]
      cases t with
      | nil => exact Or.inr rfl
      | cons y t' => exact Or.inl (List.getLast?_cons_cons).symm
    · rw [dropLeadHyphen, if_neg hx]
      exact Or.inl rfl

theorem stripEdgeHyphen_spec {l : List Char} (h : List.Chain' NoHH l) :
    (∀ c ∈ stripEdgeHyphen l, c ∈ l) ∧
    (stripEdgeHyphen l).head? ≠ some '-' ∧
    (stripEdgeHyphen l).getLast? ≠ some '-' ∧
    List.Chain' NoHH (stripEdgeHyphen l) := by
  have h1 : List.Chain' NoHH (dropLeadHyphen l) := chain_dropLeadHyphen h
  have h1r : List.Chain' NoHH (dropLeadHyphen l).reverse := chain_NoHH_reverse h1
  have h2 : List.Chain' NoHH (dropLeadHyphen (dropLeadHyphen l).reverse) :=
    chain_dropLeadHyphen h1r
  refine ⟨?_, ?_, ?_, chain_NoHH_reverse h2⟩
  · intro c hc
    rw [stripEdgeHyphen, List.mem_reverse] at hc
    exact mem_dropLeadHyphen (List.mem_reverse.mp (mem_dropLeadHyphen hc))
  · rw [stripEdgeHyphen, List.head?_reverse]
    rcases getLast_dropLeadHyphen (dropLeadHyphen l).reverse with heq | heq
    · rw [heq, List.getLast?_reverse]
      exact head_dropLeadHyphen h
    · rw [heq]
      simp
  · rw [stripEdgeHyphen, List.getLast?_reverse]
    exact head_dropLeadHyphen h1r

/-- Characters a generated slug can contain: lower-case letters, digits
and underscore (the lower-case image of `\w`). -/
def lowerWordChar (c : Char) : Bool :=
  ('a' ≤ c && c ≤ 'z') || ('0' ≤ c && c ≤ '9') || c = '_'

/-- The amended output alphabet of `generateSlug`. -/
def slugOutChar (c : Char) : Bool := lowerWordChar c || c = '-'

theorem char_le_iff {a b : Char} : a ≤ b ↔ a.toNat ≤ b.toNat := by
  rw [Char.le_def, UInt32.le_def, BitVec.le_def]
  exact Iff.rfl

theorem toNat_charOfNat {n : Nat} (h : n < 55296) : (Char.ofNat n).toNat = n := by
  rw [Char.ofNat, dif_pos (Or.inl h)]
  rfl

theorem mem_trimJS {l : List Char} {c : Char} (h : c ∈ trimJS l) : c ∈ l := by
  rw [trimJS, List.mem_reverse] at h
  have h1 := (List.dropWhile_sublist isSpaceJS).subset h
  rw [List.mem_reverse] at h1
  exact (List.dropWhile_sublist isSpaceJS).subset h1

theorem lowerWordChar_toLowerJS {c : Char} (h : isWordChar (toLowerJS c) = true) :
    lowerWordChar (toLowerJS c) = true := by
  rw [toLowerJS] at h ⊢
  by_cases hc : ('A' ≤ c && c ≤ 'Z') = true
  · rw [if_pos hc] at h ⊢
    rw [Bool.and_eq_true, decide_eq_true_eq, decide_eq_true_eq] at hc
    have h1 : 65 ≤ c.toNat := by
      have := char_le_iff.mp hc.1
      simpa using this
    have h2 : c.toNat ≤ 90 := by
      have := char_le_iff.mp hc.2
      simpa using this
    have ht : (Char.ofNat (c.toNat + 32)).toNat = c.toNat + 32 :=
      toNat_charOfNat (by omega)
    have ha : 'a' ≤ Char.ofNat (c.toNat + 32) := by
      rw [char_le_iff, ht]
      simp only [show Char.toNat 'a' = 97 from rfl]
      omega
    have hz : Char.ofNat (c.toNat + 32) ≤ 'z' := by
      rw [char_le_iff, ht]
      simp only [show Char.toNat 'z' = 122 from rfl]
      omega
    rw [lowerWordChar]
    rw [decide_eq_true ha, decide_eq_true hz]
    simp
  · rw [if_neg hc] at h ⊢
    rw [isWordChar] at h
    rw [lowerWordChar]
    simp only [Bool.or_eq_true] at h
    rcases h with ((h3 | h3) | h3) | h3
    · rw [h3]
      simp
    · exact absurd h3 hc
    · rw [h3]
      simp
    · rw [h3]
      simp

/-- C1 amended: for every title, `generateSlug` yields a string over the
alphabet `[a-z0-9_-]` (the underscore survives the JS `\w` class, which
is what the original claim missed), with no leading hyphen, no trailing
hyphen, and no two consecutive hyphens; every character is caseless or
lower-case. -/
theorem slug_charset_amended (t : String) :
    (generateSlug t).data.all slugOutChar = true ∧
    (generateSlug t).data.head? ≠ some '-' ∧
    (generateSlug t).data.getLast? ≠ some '-' ∧
    List.Chain' NoHH (generateSlug t).data := by
  have hchain : List.Chain' NoHH
      (collapseRuns (fun c => c = '-') '-'
        (collapseRuns isSpaceJS '-'
          ((trimJS (t.data.map toLowerJS)).filter
            (fun c => isWordChar c || isSpaceJS c || c = '-')))) :=
    chain_collapseHyphen _ false
  obtain ⟨hmem, hhead, hlast, hch⟩ := stripEdgeHyphen_spec hchain
  have hdata : (generateSlug t).data =
      stripEdgeHyphen
        (collapseRuns (fun c => c = '-') '-'
          (collapseRuns isSpaceJS '-'
            ((trimJS (t.data.map toLowerJS)).filter
              (fun c => isWordChar c || isSpaceJS c || c = '-')))) := rfl
  rw [hdata]
  refine ⟨?_, hhead, hlast, hch⟩
  rw [List.all_eq_true]
  intro c hc
  have hc4 := hmem c hc
  rcases mem_collapseRunsAux hc4 with rfl | ⟨hc3, hnh⟩
  · rw [slugOutChar]
    simp
  · rcases mem_collapseRunsAux hc3 with rfl | ⟨hc2, hns⟩
    · rw [slugOutChar]
      simp
    · obtain ⟨hc1, hcond⟩ := List.mem_filter.mp hc2
      have hw : isWordChar c = true := by
        simp only [Bool.or_eq_true] at hcond
        rcases hcond with (h' | h') | h'
        · exact h'
        · rw [h'] at hns
          exact Bool.noConfusion hns
        · rw [decide_eq_true_eq] at h'
          rw [h', decide_eq_true rfl] at hnh
          exact Bool.noConfusion hnh
      obtain ⟨c0, -, rfl⟩ := List.mem_map.mp (mem_trimJS hc1)
      rw [slugOutChar, lowerWordChar_toLowerJS hw]
      simp

theorem dropWhile_eq_self_of_neg {p : Char → Bool} {l : List Char}
    (h : ∀ c ∈ l, p c = false) : l.dropWhile p = l := by
  cases l with
  | nil => rfl
  | cons x t =>
    exact List.dropWhile_cons_of_neg (by simp [h x (List.mem_cons_self x t)])

theorem trimJS_no_space {l : List Char} (h : ∀ c ∈ l, isSpaceJS c = false) :
    trimJS l = l := by
  rw [trimJS, dropWhile_eq_self_of_neg h,
    dropWhile_eq_self_of_neg (fun c hc => h c (List.mem_reverse.mp hc)),
    List.reverse_reverse]

theorem digit_not_space {c : Char} (h : isDigitChar c = true) : isSpaceJS c = false := by
  rw [isDigitChar, Bool.and_eq_true, decide_eq_true_eq, decide_eq_true_eq] at h
  have h0 : 48 ≤ c.toNat := by
    have := char_le_iff.mp h.1
    simpa using this
  have h9 : c.toNat ≤ 57 := by
    have := char_le_iff.mp h.2
    simpa using this
  by_contra hcon
  rw [Bool.not_eq_false, isSpaceJS] at hcon
  simp only [Bool.or_eq_true, decide_eq_true_eq] at hcon
  rcases hcon with
    (((((((((hc | hc) | hc) | hc) | hc) | hc) | hc) | hc) | hc) | hc) <;>
    (subst hc; revert h0 h9; decide)

theorem toUpperJS_digit {c : Char} (h : isDigitChar c = true) : toUpperJS c = c := by
  rw [isDigitChar, Bool.and_eq_true, decide_eq_true_eq, decide_eq_true_eq] at h
  have h9 : c.toNat ≤ 57 := by
    have := char_le_iff.mp h.2
    simpa using this
  rw [toUpperJS, if_neg]
  intro hcon
  rw [Bool.and_eq_true, decide_eq_true_eq, decide_eq_true_eq] at hcon
  have := char_le_iff.mp hcon.1
  simp only [show Char.toNat 'a' = 97 from rfl] at this
  omega

/-- Evaluation of `normalizeTime` on a well-formed 24-hour input
`hs ++ ":" ++ [m1, m2]` with in-range hours: the first regex branch
fires and returns the zero-padded hour with the minute digits copied
verbatim. -/
theorem normalizeTimeL_24 {hs : List Char} {h : Nat} {m1 m2 : Char}
    (hdig : ∀ c ∈ hs, isDigitChar c = true) (hne : hs ≠ []) (hlen : hs.length ≤ 2)
    (hval : digitsVal hs = h) (hh : h ≤ 23)
    (hm1 : isDigitChar m1 = true) (hm2 : isDigitChar m2 = true) :
    normalizeTimeL (hs ++ ':' :: [m1, m2]) = some (pad2 h ++ ':' :: [m1, m2]) := by
  have hnos : ∀ c ∈ hs ++ ':' :: [m1, m2], isSpaceJS c = false := by
    intro c hc
    rcases List.mem_append.mp hc with hc | hc
    · exact digit_not_space (hdig c hc)
    · rcases List.mem_cons.mp hc with rfl | hc
      · decide
      · rcases List.mem_cons.mp hc with rfl | hc
        · exact digit_not_space hm1
        · rcases List.mem_cons.mp hc with rfl | hc
          · exact digit_not_space hm2
          · simp at hc
  have hup : ∀ c ∈ hs ++ ':' :: [m1, m2], toUpperJS c = c := by
    intro c hc
    rcases List.mem_append.mp hc with hc | hc
    · exact toUpperJS_digit (hdig c hc)
    · rcases List.mem_cons.mp hc with rfl | hc
      · decide
      · rcases List.mem_cons.mp hc with rfl | hc
        · exact toUpperJS_digit hm1
        · rcases List.mem_cons.mp hc with rfl | hc
          · exact toUpperJS_digit hm2
          · simp at hc
  have hu : (trimJS (hs ++ ':' :: [m1, m2])).map toUpperJS = hs ++ ':' :: [m1, m2] := by
    rw [trimJS_no_space hnos]
    rw [List.map_congr_left hup, List.map_id']
  have htake : (hs ++ ':' :: [m1, m2]).takeWhile isDigitChar = hs := by
    rw [List.takeWhile_append_of_pos (fun a ha => hdig a ha),
      List.takeWhile_cons_of_neg (by decide), List.append_nil]
  have hdrop : (hs ++ ':' :: [m1, m2]).dropWhile isDigitChar = ':' :: [m1, m2] := by
    rw [List.dropWhile_append_of_pos (fun a ha => hdig a ha),
      List.dropWhile_cons_of_neg (by decide)]
  have hlen1 : 1 ≤ hs.length := List.length_pos.mpr hne
  rw [normalizeTimeL]
  simp only [hu, htake, hdrop]
  rw [if_pos ⟨hlen1, hlen⟩]
  rw [if_pos (by rw [hm1, hm2]; rfl)]
  rw [hval]
  rw [if_pos ⟨rfl, hh⟩]

theorem natList_two {m : Nat} (h1 : 10 ≤ m) (h2 : m < 100) :
    natList m = [digitChar (m / 10), digitChar (m % 10)] := by
  rw [natList, natListAux, if_neg (by omega), natListAux_small (by omega) (by omega)]
  rfl

theorem pad2_eq {m : Nat} (h : m < 100) :
    pad2 m = [digitChar (m / 10), digitChar (m % 10)] := by
  by_cases hm : m < 10
  · rw [pad2, natList, natListAux_small (Nat.succ_pos m) hm]
    rw [if_pos (by simp)]
    rw [Nat.div_eq_of_lt hm, Nat.mod_eq_of_lt hm]
    rfl
  · rw [pad2, natList_two (by omega) h, if_neg (by simp)]

theorem digitsVal_pad2 {m : Nat} (h : m < 100) : digitsVal (pad2 m) = m := by
  have ha : m / 10 ≤ 9 := by omega
  have hb : m % 10 ≤ 9 := by omega
  rw [pad2_eq h, digitsVal]
  simp only [List.foldl_cons, List.foldl_nil]
  rw [digitVal_digitChar ha, digitVal_digitChar hb]
  omega

theorem pad2_all_digit (m : Nat) : ∀ c ∈ pad2 m, isDigitChar c = true := by
  intro c hc
  rw [pad2] at hc
  by_cases hl : (natList m).length < 2
  · rw [if_pos hl] at hc
    rcases List.mem_cons.mp hc with rfl | hc
    · decide
    · exact natList_all_digit m c hc
  · rw [if_neg hl] at hc
    exact natList_all_digit m c hc

theorem pad2_ne_nil (m : Nat) : pad2 m ≠ [] := by
  rw [pad2]
  by_cases hl : (natList m).length < 2
  · rw [if_pos hl]
    simp
  · rw [if_neg hl]
    exact natList_ne_nil m

theorem pad2_length {m : Nat} (h : m < 100) : (pad2 m).length = 2 := by
  rw [pad2_eq h]
  rfl

theorem natList_le_two_length {h : Nat} (hh : h < 100) : (natList h).length ≤ 2 := by
  by_cases hm : h < 10
  · rw [natList, natListAux_small (Nat.succ_pos h) hm]
    simp
  · rw [natList_two (by omega) hh]
    simp

/-- C7: every valid time input is normalised to zero-padded 24-hour
`HH:MM`: every 24-hour `H:MM`/`HH:MM` with hours 0–23 and minutes 0–59
round-trips to its zero-padded form, `"2:30 PM"` maps to `"14:30"`,
midnight `"12:00 AM"` to `"00:00"`, and noon `"12:00 PM"` to
`"12:00"`. -/
theorem time_normalization_valid :
    (∀ h : Nat, h ≤ 23 → ∀ m : Nat, m ≤ 59 →
       normalizeTime ⟨natList h ++ ':' :: pad2 m⟩ = some ⟨pad2 h ++ ':' :: pad2 m⟩ ∧
       normalizeTime ⟨pad2 h ++ ':' :: pad2 m⟩ = some ⟨pad2 h ++ ':' :: pad2 m⟩) ∧
    normalizeTime "2:30" = some "02:30" ∧
    normalizeTime "2:30 PM" = some "14:30" ∧
    normalizeTime "12:00 AM" = some "00:00" ∧
    normalizeTime "12:00 PM" = some "12:00" := by
  refine ⟨?_, by decide, by decide, by decide, by decide⟩
  intro h hh m hm
  have hmm : pad2 m = [digitChar (m / 10), digitChar (m % 10)] := pad2_eq (by omega)
  have hd1 : isDigitChar (digitChar (m / 10)) = true := isDigitChar_digitChar (by omega)
  have hd2 : isDigitChar (digitChar (m % 10)) = true := isDigitChar_digitChar (by omega)
  constructor
  · have hcore := normalizeTimeL_24 (natList_all_digit h) (natList_ne_nil h)
      (natList_le_two_length (by omega)) (digitsVal_natList h) hh hd1 hd2
    have hgoal : normalizeTime ⟨natList h ++ ':' :: pad2 m⟩ =
        (normalizeTimeL (natList h ++ ':' :: pad2 m)).map
          (fun l => (⟨l⟩ : String)) := rfl
    rw [hgoal, hmm, hcore]
    rfl
  · have hcore := normalizeTimeL_24 (pad2_all_digit h) (pad2_ne_nil h)
      (Nat.le_of_eq (pad2_length (by omega))) (digitsVal_pad2 (by omega)) hh hd1 hd2
    have hgoal : normalizeTime ⟨pad2 h ++ ':' :: pad2 m⟩ =
        (normalizeTimeL (pad2 h ++ ':' :: pad2 m)).map
          (fun l => (⟨l⟩ : String)) := rfl
    rw [hgoal, hmm, hcore]
    rfl

theorem time_normalization_valid_witness :
    normalizeTime ⟨natList 2 ++ ':' :: pad2 30⟩ = some ⟨pad2 2 ++ ':' :: pad2 30⟩ ∧
    normalizeTime ⟨pad2 2 ++ ':' :: pad2 30⟩ = some ⟨pad2 2 ++ ':' :: pad2 30⟩ :=
  time_normalization_valid.1 2 (by decide) 30 (by decide)

/-- C10 (implicit): `normalizeTime` performs no range check on the
minutes: any `H:MM`/`HH:MM` whose hour is 0–23 succeeds with the two
minute digits copied verbatim, even beyond 59 — `"10:99"` yields
`"10:99"`. -/
theorem minutes_unchecked :
    (∀ h : Nat, h ≤ 23 → ∀ m1 m2 : Char, isDigitChar m1 = true → isDigitChar m2 = true →
       normalizeTime ⟨natList h ++ ':' :: [m1, m2]⟩ = some ⟨pad2 h ++ ':' :: [m1, m2]⟩ ∧
       normalizeTime ⟨pad2 h ++ ':' :: [m1, m2]⟩ = some ⟨pad2 h ++ ':' :: [m1, m2]⟩) ∧
    normalizeTime "10:99" = some "10:99" := by
  refine ⟨?_, by decide⟩
  intro h hh m1 m2 hm1 hm2
  constructor
  · have hcore := normalizeTimeL_24 (natList_all_digit h) (natList_ne_nil h)
      (natList_le_two_length (by omega)) (digitsVal_natList h) hh hm1 hm2
    have hgoal : normalizeTime ⟨natList h ++ ':' :: [m1, m2]⟩ =
        (normalizeTimeL (natList h ++ ':' :: [m1, m2])).map
          (fun l => (⟨l⟩ : String)) := rfl
    rw [hgoal, hcore]
    rfl
  · have hcore := normalizeTimeL_24 (pad2_all_digit h) (pad2_ne_nil h)
      (Nat.le_of_eq (pad2_length (by omega))) (digitsVal_pad2 (by omega)) hh hm1 hm2
    have hgoal : normalizeTime ⟨pad2 h ++ ':' :: [m1, m2]⟩ =
        (normalizeTimeL (pad2 h ++ ':' :: [m1, m2])).map
          (fun l => (⟨l⟩ : String)) := rfl
    rw [hgoal, hcore]
    rfl

theorem minutes_unchecked_witness :
    normalizeTime ⟨natList 10 ++ ':' :: ['9', '9']⟩ =
      some ⟨pad2 10 ++ ':' :: ['9', '9']⟩ ∧
    normalizeTime ⟨pad2 10 ++ ':' :: ['9', '9']⟩ =
      some ⟨pad2 10 ++ ':' :: ['9', '9']⟩ :=
  minutes_unchecked.1 10 (by decide) '9' '9' (by decide) (by decide)

end DevEvents
